import Mathlib

/-!
Verification of the subsumption-mapping generation core of DeepOnto
(src/deeponto/data/align/subs_maps.py, class SubsumptionMappingGenerator).

Class references are modelled as abbreviated IRI strings, the form the
Python code passes around.  Entity objects of the OWL backend are
identified with their abbreviated IRIs: the code always converts back
with abbr_iri(entity.iri) immediately after a hierarchy move, so the
whole algorithm operates on abbreviated names.  The two Python
defaultdict(lambda: False) status maps are modelled as association
lists with an explicit defaulting read that inserts the default on a
miss, exactly as a Python defaultdict read does.
-/

set_option maxHeartbeats 1000000

namespace SubsMaps

/-- Association-list lookup modelling a Python dict read: first matching
key wins. -/
def alookup {κ ν : Type} [DecidableEq κ] : List (κ × ν) → κ → Option ν
  | [], _ => none
  | e :: rest, k => if e.1 = k then some e.2 else alookup rest k

/-- Association-list write modelling a Python dict setitem: replace the
entry in place if the key is present, otherwise append it. -/
def aset {κ ν : Type} [DecidableEq κ] : List (κ × ν) → κ → ν → List (κ × ν)
  | [], k, v => [(k, v)]
  | e :: rest, k, v => if e.1 = k then (k, v) :: rest else e :: aset rest k v

/-- Defaulting read of a defaultdict(lambda: False): returns the stored
value, inserting the key with value false when it is absent (a Python
defaultdict mutates on a missing read). -/
def dget (d : List (String × Bool)) (k : String) : Bool × List (String × Bool) :=
  match alookup d k with
  | some v => (v, d)
  | none => (false, d ++ [(k, false)])

/-- Order-preserving removal of duplicates keeping the first occurrence,
with an accumulator of the elements already kept. -/
def dedupAux {α : Type} [DecidableEq α] : List α → List α → List α
  | [], _ => []
  | x :: xs, seen =>
    if x ∈ seen then dedupAux xs seen else x :: dedupAux xs (seen ++ [x])

/-- Order-preserving removal of duplicates keeping the first occurrence. -/
def dedupFirst {α : Type} [DecidableEq α] (l : List α) : List α := dedupAux l []

/-- Modelled from the spec: deeponto.utils.uniqify (not under src/)
deduplicates the accumulated pairs, keeping first occurrences in order. -/
def uniqify {α : Type} [DecidableEq α] (l : List α) : List α := dedupFirst l

/-- Modelled from the spec: deeponto.onto.text.text_utils.unfold_iri
(not under src/) expands an abbreviated class identifier into its fully
unfolded IRI; modelled as prepending a fixed namespace, an injective map
as IRI unfolding of distinct abbreviated identifiers is. -/
def unfold_iri (s : String) : String := "IRI:" ++ s

/-- List difference modelling Python set difference set(xs) - set(ys)
(the model fixes first-occurrence order; the Python iteration order of a
set is unspecified and the spec flags it as a nondeterminism source). -/
def diffList (xs ys : List String) : List String :=
  xs.filter (fun x => decide (¬ x ∈ ys))

/-- The SubsumptionMappingGenerator instance state: configuration fields
fixed at construction plus the generation record (sub_pairs, hop_record,
delete_status, construct_status). -/
structure Gen where
  rel : String
  move : String → List String
  max_hop : Int
  srcClassIndex : List String
  tgtClassIndex : List String
  equiv_pairs : List (String × String)
  sub_pairs : List (String × String)
  hop_record : List ((String × String) × Int)
  max_subs_cap : Int
  is_delete_equiv_tgt : Bool
  delete_status : List (String × Bool)
  construct_status : List (String × Bool)

/-- Local state of the BFS inside subs_from_an_equiv, together with the
generator-owned maps the loop mutates in place. -/
structure SState where
  valid : List String
  frontier : List String
  explored : List String
  hop : Int
  numAdded : Int
  hrec : List ((String × String) × Int)
  del : List (String × Bool)
  cons : List (String × Bool)

/-- Inner neighbour loop of subs_from_an_equiv: scan the neighbour
list of one frontier node; a neighbour marked deleted is skipped (the read of the
deletion map happens only when the deletion flag is on, mirroring the
Python short-circuit); an accepted neighbour is recorded in the hop
record at the current hop, appended to the accepted list, marked
constructed, and counted; the loop breaks out of this one list when the
count equals the cap. -/
def scan_nbs (isDel : Bool) (cap : Int) (src : String) :
    List String → SState → SState
  | [], st => st
  | n :: rest, st =>
    let rd := if isDel then dget st.del n else (false, st.del)
    if rd.1 then
      scan_nbs isDel cap src rest { st with del := rd.2 }
    else
      let st2 : SState :=
        { st with
          del := rd.2
          hrec := aset st.hrec (src, n) st.hop
          valid := st.valid ++ [n]
          cons := aset st.cons n true
          numAdded := st.numAdded + 1 }
      if st2.numAdded = cap then st2 else scan_nbs isDel cap src rest st2

/-- Outer loop over the current frontier: scan the neighbours of each node,
accumulate all neighbours touched at this hop, and append the node to
the explored list. -/
def frontier_loop (mv : String → List String) (isDel : Bool) (cap : Int)
    (src : String) : List String → SState → List String → SState × List String
  | [], st, cur => (st, cur)
  | ent :: rest, st, cur =>
    let st1 := scan_nbs isDel cap src (mv ent) st
    frontier_loop mv isDel cap src rest
      { st1 with explored := st1.explored ++ [ent] } (cur ++ mv ent)

/-- One iteration of the while loop: process the whole frontier, then
set the new frontier to the neighbours touched at this hop minus the
explored nodes, and advance the hop counter. -/
def hop_step (mv : String → List String) (isDel : Bool) (cap : Int)
    (src : String) (st : SState) : SState :=
  let p := frontier_loop mv isDel cap src st.frontier st []
  { p.1 with
    frontier := dedupFirst (diffList p.2 p.1.explored)
    hop := p.1.hop + 1 }

/-- The while loop of subs_from_an_equiv, with fuel: the loop runs while
fewer than max_subs_ratio neighbours are accepted and hop has not passed
max_hop.  The hop counter increases by one per iteration from 1, so
max_hop.toNat fuel is exactly enough: fuel runs out only when the hop
condition is already false. -/
def search_loop (mv : String → List String) (isDel : Bool) (cap : Int)
    (mh : Int) (src : String) : Nat → SState → SState
  | 0, st => st
  | Nat.succ fuel, st =>
    if (st.valid.length : Int) < cap ∧ st.hop ≤ mh then
      search_loop mv isDel cap mh src fuel (hop_step mv isDel cap src st)
    else st

/-- Initial BFS state: frontier holds the resolved anchor, hop counter 1,
nothing accepted, and the generator-owned maps carried in. -/
def searchInit (g : Gen) (tgt : String) : SState :=
  { valid := [], frontier := [tgt], explored := [], hop := 1,
    numAdded := 0, hrec := g.hop_record, del := g.delete_status,
    cons := g.construct_status }

/-- Final BFS state of subs_from_an_equiv on a resolved anchor. -/
def searchOut (g : Gen) (src tgt : String) : SState :=
  search_loop g.move g.is_delete_equiv_tgt g.max_subs_cap g.max_hop src
    g.max_hop.toNat (searchInit g tgt)

/-- Result of subs_from_an_equiv on a resolved anchor: the deduplicated
accepted pairs and the generator with hop record and status maps updated. -/
def subs_result (g : Gen) (src tgt : String) : List (String × String) × Gen :=
  (uniqify ((searchOut g src tgt).valid.map (fun n => (src, n))),
    { g with
      hop_record := (searchOut g src tgt).hrec
      delete_status := (searchOut g src tgt).del
      construct_status := (searchOut g src tgt).cons })

/-- subs_from_an_equiv: bounded BFS from the target equivalence anchor.
Resolution of the anchor (owl.search followed by taking the first hit)
fails when the identifier is not in the target class index; the model
returns none for that fatal lookup failure. -/
def subs_from_an_equiv (g : Gen) (src tgt : String) :
    Option (List (String × String) × Gen) :=
  if tgt ∈ g.tgtClassIndex then some (subs_result g src tgt) else none

/-- renew_subs: clear the generation record for a fresh pass. -/
def renew_subs (g : Gen) : Gen :=
  { g with
    sub_pairs := []
    hop_record := []
    delete_status := []
    construct_status := [] }

/-- Pre-pass of the static algorithm: for each equivalence pair resolve
the target (fatal on failure) and mark it deleted when it has at least
one neighbour in the search direction. -/
def static_mark (g : Gen) : List (String × String) → Option Gen
  | [] => some g
  | (_, t) :: rest =>
    if t ∈ g.tgtClassIndex then
      let g2 :=
        if g.move t ≠ [] then
          { g with delete_status := aset g.delete_status t true }
        else g
      static_mark g2 rest
    else none

/-- Main pass of the static algorithm: per-equivalence search for every
pair in store order, accumulating the produced pairs. -/
def static_main (g : Gen) : List (String × String) → Option Gen
  | [] => some g
  | (s, t) :: rest =>
    match subs_from_an_equiv g s t with
    | none => none
    | some p => static_main { p.2 with sub_pairs := p.2.sub_pairs ++ p.1 } rest

/-- static_subs_construct: reset, pre-pass deletion marking (only when
the deletion flag is on), main pass, then deduplication of the
accumulated pairs. -/
def static_subs_construct (g : Gen) : Option Gen :=
  let g0 := renew_subs g
  match (if g0.is_delete_equiv_tgt then static_mark g0 g0.equiv_pairs
         else some g0) with
  | none => none
  | some g1 =>
    match static_main g1 g1.equiv_pairs with
    | none => none
    | some g2 => some { g2 with sub_pairs := uniqify g2.sub_pairs }

/-- Tail of an unskipped online step: mark the equivalence target
deleted when the search yielded anything (and the flag is on), then feed
the produced pairs to the output. -/
def online_after (g1 : Gen) (t : String) (cur : List (String × String)) : Gen :=
  let g2 :=
    if g1.is_delete_equiv_tgt && !cur.isEmpty then
      { g1 with delete_status := aset g1.delete_status t true }
    else g1
  { g2 with sub_pairs := g2.sub_pairs ++ cur }

/-- One step of the online algorithm on one equivalence pair: when the
deletion flag is on, read the construct mark of the own target of the pair
(a defaultdict read, so it vivifies the key) and skip the pair entirely
when it is set; otherwise run the per-equivalence search and apply the
online deletion marking. -/
def online_step (g : Gen) (s t : String) : Option Gen :=
  let c := if g.is_delete_equiv_tgt then ((dget g.construct_status t).1) else false
  let g0 := if g.is_delete_equiv_tgt then
      { g with construct_status := (dget g.construct_status t).2 } else g
  if g.is_delete_equiv_tgt && c then some g0
  else (subs_from_an_equiv g0 s t).bind (fun p => some (online_after p.2 t p.1))

/-- The online loop over the equivalence pairs in store order. -/
def online_loop (g : Gen) : List (String × String) → Option Gen
  | [] => some g
  | (s, t) :: rest =>
    match online_step g s t with
    | none => none
    | some g1 => online_loop g1 rest

/-- online_subs_construct: reset, one incremental pass over the pairs,
then deduplication of the accumulated pairs. -/
def online_subs_construct (g : Gen) : Option Gen :=
  match online_loop (renew_subs g) (renew_subs g).equiv_pairs with
  | none => none
  | some g1 => some { g1 with sub_pairs := uniqify g1.sub_pairs }

/-- Loop of preserved_tgt_iris over the target class index: a
defaultdict read of the deletion flag (vivifying the key), keeping the
unfolded IRI of every class whose flag is not set. -/
def preserved_loop (del : List (String × Bool)) (acc : List String) :
    List String → List String × List (String × Bool)
  | [] => (acc, del)
  | k :: ks =>
    let rd := dget del k
    preserved_loop rd.2 (if rd.1 then acc else acc ++ [unfold_iri k]) ks

/-- preserved_tgt_iris: the fully unfolded identifiers of target classes
not marked deleted; the defaultdict reads make it a mutating query. -/
def preserved_tgt_iris (g : Gen) : List String × Gen :=
  let p := preserved_loop g.delete_status [] g.tgtClassIndex
  (p.1, { g with delete_status := p.2 })

/-- Failure modes of the constructor. -/
inductive InitErr where
  | configError : InitErr
  | indexError : InitErr
  | validationError : InitErr
deriving DecidableEq

/-- The constructor: the relation direction is validated first (an
unrecognized symbol is a fatal configuration error raised before the
equivalence store is read); then the store is loaded and a sampled pair
(random.choice, modelled by the pick index; an empty store makes it an
index error) is checked against both class indexes; only then is the
generation record created. -/
def initGen (srcIdx tgtIdx : List String) (moveSup moveSub : String → List String)
    (rel : String) (stored : List (String × String)) (cap : Int) (isDel : Bool)
    (mh : Int) (pick : Nat) : Except InitErr Gen :=
  if rel = "<" ∨ rel = ">" then
    let mv := if rel = "<" then moveSup else moveSub
    if stored.length = 0 then Except.error InitErr.indexError
    else
      let check := stored.getD (pick % stored.length) ("", "")
      if check.1 ∈ srcIdx ∧ check.2 ∈ tgtIdx then
        Except.ok
          { rel := rel, move := mv, max_hop := mh,
            srcClassIndex := srcIdx, tgtClassIndex := tgtIdx,
            equiv_pairs := stored, sub_pairs := [], hop_record := [],
            max_subs_cap := cap, is_delete_equiv_tgt := isDel,
            delete_status := [], construct_status := [] }
      else Except.error InitErr.validationError
  else Except.error InitErr.configError

/-! Reachability in the hierarchy graph, used to bound recorded hops
from below by the least BFS depth of the recorded neighbour. -/

/-- All immediate neighbours of all nodes in a list. -/
def stepAll (mv : String → List String) : List String → List String
  | [] => []
  | x :: xs => mv x ++ stepAll mv xs

/-- Nodes reachable from the anchor t in at most k hierarchy moves. -/
def reachSet (mv : String → List String) (t : String) : Nat → List String
  | 0 => [t]
  | Nat.succ k => reachSet mv t k ++ stepAll mv (reachSet mv t k)

/-- The hop-record postcondition of the search: every binding is either
an untouched pre-existing one, or was written during the search, in
which case the hop lies in the depth bounds and the neighbour is
reachable from the anchor within that many moves. -/
def RecBound (mv : String → List String) (t : String) (mh : Int)
    (r0 r : List ((String × String) × Int)) : Prop :=
  ∀ k d, alookup r k = some d →
    alookup r0 k = some d ∨ (1 ≤ d ∧ d ≤ mh ∧ k.2 ∈ reachSet mv t d.toNat)

/-- A pair list yields a deletion of target u when some pair along the
online pass, started in the given generator state, has target u, is not
skipped (its own target is not yet marked constructed), and its
per-equivalence search accepts at least one neighbour. -/
inductive YieldsDel : Gen → List (String × String) → String → Prop where
  | found (g : Gen) (s t : String) (rest : List (String × String))
      (cur : List (String × String)) (q2 : Gen)
      (hc : (dget g.construct_status t).1 = false)
      (hsub : subs_from_an_equiv
        { g with construct_status := (dget g.construct_status t).2 } s t
          = some (cur, q2))
      (hne : cur ≠ []) : YieldsDel g ((s, t) :: rest) t
  | later (g : Gen) (p : String × String) (rest : List (String × String))
      (t : String) (g1 : Gen)
      (hstep : online_step g p.1 p.2 = some g1)
      (hy : YieldsDel g1 rest t) : YieldsDel g (p :: rest) t

/-! Concrete hierarchies and generator configurations used to evaluate
the algorithms on explicit inputs. -/

/-- Hierarchy with B below C and D, C below E, and D below F and G. -/
def mvA : String → List String := fun x =>
  if x = "B" then ["C", "D"]
  else if x = "C" then ["E"]
  else if x = "D" then ["F", "G"] else []

/-- Generator over mvA with one equivalence pair, cap 3 and depth 2. -/
def genA : Gen :=
  { rel := "<", move := mvA, max_hop := 2, srcClassIndex := ["A"],
    tgtClassIndex := ["B", "C", "D", "E", "F", "G"],
    equiv_pairs := [("A", "B")], sub_pairs := [], hop_record := [],
    max_subs_cap := 3, is_delete_equiv_tgt := true,
    delete_status := [], construct_status := [] }

/-- Hierarchy with B below C and D, and D below C: C is reachable from B
at depth 1 and again at depth 2. -/
def mvB : String → List String := fun x =>
  if x = "B" then ["C", "D"] else if x = "D" then ["C"] else []

/-- Generator over mvB with a large cap so nothing is cut off. -/
def genB : Gen :=
  { rel := "<", move := mvB, max_hop := 2, srcClassIndex := ["A"],
    tgtClassIndex := ["B", "C", "D"],
    equiv_pairs := [("A", "B")], sub_pairs := [], hop_record := [],
    max_subs_cap := 10, is_delete_equiv_tgt := false,
    delete_status := [], construct_status := [] }

/-- Tiny hierarchy: B below C only. -/
def mvC : String → List String := fun x => if x = "B" then ["C"] else []

/-- Generator over mvC matching the spec scenario with cap 1. -/
def genC : Gen :=
  { rel := "<", move := mvC, max_hop := 3, srcClassIndex := ["A"],
    tgtClassIndex := ["B", "C"],
    equiv_pairs := [("A", "B")], sub_pairs := [], hop_record := [],
    max_subs_cap := 1, is_delete_equiv_tgt := true,
    delete_status := [], construct_status := [] }

/-- Generator with one pre-existing deletion mark, for the
preserved-targets query. -/
def genE : Gen :=
  { rel := "<", move := mvC, max_hop := 3, srcClassIndex := ["A"],
    tgtClassIndex := ["B", "C"],
    equiv_pairs := [("A", "B")], sub_pairs := [], hop_record := [],
    max_subs_cap := 1, is_delete_equiv_tgt := true,
    delete_status := [("B", true)], construct_status := [] }

/-- Generator with a zero depth bound. -/
def genD : Gen :=
  { rel := "<", move := mvC, max_hop := 0, srcClassIndex := ["A"],
    tgtClassIndex := ["B", "C"],
    equiv_pairs := [("A", "B")], sub_pairs := [], hop_record := [],
    max_subs_cap := 1, is_delete_equiv_tgt := true,
    delete_status := [], construct_status := [] }

/-- Search output of genB on its equivalence pair. -/
def outB : List (String × String) × Gen :=
  (subs_from_an_equiv genB "A" "B").getD ([], genB)

/-- Search output of genC on its equivalence pair. -/
def outC : List (String × String) × Gen :=
  (subs_from_an_equiv genC "A" "B").getD ([], genC)

/-- Static run output on genC. -/
def outC_static : Gen := (static_subs_construct genC).getD genC

/-- Online run output on genC. -/
def outC_online : Gen := (online_subs_construct genC).getD genC

/-- Preserved-targets query output on the static run output of genC. -/
def prC : List String × Gen := preserved_tgt_iris outC_static

/-- Preserved-targets query output on genE. -/
def prE : List String × Gen := preserved_tgt_iris genE

/-! Basic lemmas about the dictionary model. -/

theorem alookup_aset {κ ν : Type} [DecidableEq κ] (d : List (κ × ν)) (k k' : κ) (v : ν) :
    alookup (aset d k v) k' = if k' = k then some v else alookup d k' := by
  induction d with
  | nil =>
    by_cases h : k' = k
    · simp [aset, alookup, h]
    · have h2 : ¬ k = k' := fun hx => h hx.symm
      simp [aset, alookup, h, h2]
  | cons e rest ih =>
    by_cases he : e.1 = k
    · subst he
      by_cases h : k' = e.1
      · simp [aset, alookup, h]
      · have h2 : ¬ e.1 = k' := fun hx => h hx.symm
        simp [aset, alookup, h, h2]
    · by_cases h2 : e.1 = k'
      · have h3 : ¬ k' = k := fun hk => he (h2.trans hk)
        simp [aset, he, alookup, h2, h3]
      · simp [aset, he, alookup, h2, ih]

theorem alookup_append_single (d : List (String × Bool)) (k k' : String) (v : Bool) :
    alookup (d ++ [(k, v)]) k' =
      match alookup d k' with
      | some w => some w
      | none => if k = k' then some v else none := by
  induction d with
  | nil =>
    by_cases h : k = k' <;> simp [alookup, h]
  | cons e rest ih =>
    by_cases h : e.1 = k' <;> simp [alookup, h, ih]

theorem dget_fst (d : List (String × Bool)) (k : String) :
    (dget d k).1 = (alookup d k).getD false := by
  unfold dget
  cases h : alookup d k <;> simp

theorem alookup_dget (d : List (String × Bool)) (k k' : String) :
    alookup (dget d k).2 k' =
      if k' = k ∧ alookup d k = none then some false else alookup d k' := by
  unfold dget
  cases h : alookup d k with
  | some v => simp [h]
  | none =>
    rw [alookup_append_single]
    cases h2 : alookup d k' with
    | some w =>
      have : ¬ (k' = k) := by
        intro he; rw [he] at h2; rw [h2] at h; exact Option.noConfusion h
      simp [h2, this]
    | none =>
      by_cases he : k = k'
      · subst he
        simp [h2, h]
      · have h3 : ¬ k' = k := fun x => he x.symm
        simp [h2, h3, he]

theorem alookup_dget_true (d : List (String × Bool)) (k k' : String) :
    (alookup (dget d k).2 k' = some true) ↔ (alookup d k' = some true) := by
  rw [alookup_dget]
  by_cases h : k' = k ∧ alookup d k = none
  · rw [if_pos h]
    constructor
    · intro hc
      exact absurd (Option.some.inj hc) (by decide)
    · intro hc
      rw [h.1, h.2] at hc
      exact Option.noConfusion hc
  · rw [if_neg h]

theorem dget_getD (d : List (String × Bool)) (k k' : String) :
    (alookup (dget d k).2 k').getD false = (alookup d k').getD false := by
  rw [alookup_dget]
  by_cases h : k' = k ∧ alookup d k = none
  · rw [if_pos h, h.1, h.2]
    rfl
  · rw [if_neg h]

theorem alookup_dget_some (d : List (String × Bool)) (k k' : String) (v : Bool)
    (h : alookup d k' = some v) : alookup (dget d k).2 k' = some v := by
  rw [alookup_dget]
  by_cases hc : k' = k ∧ alookup d k = none
  · exfalso; rw [hc.1] at h; rw [hc.2] at h; exact Option.noConfusion h
  · simp [hc, h]

/-! Lemmas about deduplication. -/

theorem not_mem_seen_of_mem_dedupAux {α : Type} [DecidableEq α] :
    ∀ (l seen : List α) (a : α), a ∈ dedupAux l seen → a ∉ seen := by
  intro l
  induction l with
  | nil => intro seen a h; simp [dedupAux] at h
  | cons x xs ih =>
    intro seen a h
    by_cases hx : x ∈ seen
    · rw [dedupAux, if_pos hx] at h
      exact ih seen a h
    · rw [dedupAux, if_neg hx] at h
      rcases List.mem_cons.mp h with h1 | h2
      · rw [h1]; exact hx
      · intro hs
        exact ih (seen ++ [x]) a h2 (List.mem_append_left _ hs)

theorem nodup_dedupAux {α : Type} [DecidableEq α] :
    ∀ (l seen : List α), (dedupAux l seen).Nodup := by
  intro l
  induction l with
  | nil => intro seen; simp [dedupAux]
  | cons x xs ih =>
    intro seen
    by_cases hx : x ∈ seen
    · rw [dedupAux, if_pos hx]; exact ih seen
    · rw [dedupAux, if_neg hx]
      refine List.Nodup.cons ?_ (ih (seen ++ [x]))
      intro hmem
      exact not_mem_seen_of_mem_dedupAux xs (seen ++ [x]) x hmem
        (List.mem_append_right _ (List.mem_singleton.mpr rfl))

theorem mem_of_mem_dedupAux {α : Type} [DecidableEq α] :
    ∀ (l seen : List α) (a : α), a ∈ dedupAux l seen → a ∈ l := by
  intro l
  induction l with
  | nil => intro seen a h; simp [dedupAux] at h
  | cons x xs ih =>
    intro seen a h
    by_cases hx : x ∈ seen
    · rw [dedupAux, if_pos hx] at h
      exact List.mem_cons_of_mem _ (ih seen a h)
    · rw [dedupAux, if_neg hx] at h
      rcases List.mem_cons.mp h with h1 | h2
      · exact h1 ▸ List.mem_cons_self _ _
      · exact List.mem_cons_of_mem _ (ih (seen ++ [x]) a h2)

theorem uniqify_nodup {α : Type} [DecidableEq α] (l : List α) : (uniqify l).Nodup :=
  nodup_dedupAux l []

theorem mem_diffList (xs ys : List String) (a : String) :
    a ∈ diffList xs ys ↔ a ∈ xs ∧ a ∉ ys := by
  simp [diffList, List.mem_filter]

theorem mem_stepAll (mv : String → List String) :
    ∀ (l : List String) (x n : String), x ∈ l → n ∈ mv x → n ∈ stepAll mv l := by
  intro l
  induction l with
  | nil => intro x n hx; simp at hx
  | cons y ys ih =>
    intro x n hx hn
    rcases List.mem_cons.mp hx with h1 | h2
    · exact List.mem_append_left _ (h1 ▸ hn)
    · exact List.mem_append_right _ (ih x n h2 hn)

theorem step_reach (mv : String → List String) (t : String) (k : Nat)
    (x n : String) (hx : x ∈ reachSet mv t k) (hn : n ∈ mv x) :
    n ∈ reachSet mv t (k + 1) :=
  List.mem_append_right _ (mem_stepAll mv (reachSet mv t k) x n hx hn)

/-! Invariant preservation through the nested loops of the search. -/

theorem scan_nbs_spec (isDel : Bool) (cap : Int) (src : String) :
    ∀ (nbs : List String) (st : SState),
      (scan_nbs isDel cap src nbs st).hop = st.hop ∧
      (scan_nbs isDel cap src nbs st).frontier = st.frontier ∧
      (scan_nbs isDel cap src nbs st).explored = st.explored ∧
      (∀ u, alookup (scan_nbs isDel cap src nbs st).del u = some true ↔
        alookup st.del u = some true) := by
  intro nbs
  induction nbs with
  | nil => intro st; exact ⟨rfl, rfl, rfl, fun u => Iff.rfl⟩
  | cons n rest ih =>
    intro st
    simp only [scan_nbs]
    have hrd : ∀ u, alookup (if isDel then dget st.del n else (false, st.del)).2 u = some true ↔
        alookup st.del u = some true := by
      intro u
      cases isDel
      · simp
      · simp [alookup_dget_true]
    by_cases hb : (if isDel then dget st.del n else (false, st.del)).1 = true
    · rw [if_pos hb]
      obtain ⟨a, b, c, d⟩ := ih
        { st with del := (if isDel then dget st.del n else (false, st.del)).2 }
      exact ⟨a, b, c, fun u => (d u).trans (hrd u)⟩
    · rw [if_neg hb]
      by_cases h2 : st.numAdded + 1 = cap
      · rw [if_pos h2]
        exact ⟨rfl, rfl, rfl, hrd⟩
      · rw [if_neg h2]
        obtain ⟨a, b, c, d⟩ := ih
          { st with
            del := (if isDel then dget st.del n else (false, st.del)).2
            hrec := aset st.hrec (src, n) st.hop
            valid := st.valid ++ [n]
            cons := aset st.cons n true
            numAdded := st.numAdded + 1 }
        exact ⟨a, b, c, fun u => (d u).trans (hrd u)⟩

theorem scan_nbs_rec (mv : String → List String) (t : String) (mh : Int)
    (r0 : List ((String × String) × Int)) (isDel : Bool) (cap : Int) (src : String) :
    ∀ (nbs : List String) (st : SState),
      (∀ n, n ∈ nbs → n ∈ reachSet mv t st.hop.toNat) →
      1 ≤ st.hop → st.hop ≤ mh →
      RecBound mv t mh r0 st.hrec →
      RecBound mv t mh r0 (scan_nbs isDel cap src nbs st).hrec := by
  intro nbs
  induction nbs with
  | nil => intro st _ _ _ hr; exact hr
  | cons n rest ih =>
    intro st hnb hlo hhi hr
    simp only [scan_nbs]
    have hr2 : RecBound mv t mh r0 (aset st.hrec (src, n) st.hop) := by
      intro k d hk
      rw [alookup_aset] at hk
      by_cases hke : k = (src, n)
      · rw [if_pos hke] at hk
        right
        refine ⟨?_, ?_, ?_⟩
        · rw [← Option.some.inj hk]; exact hlo
        · rw [← Option.some.inj hk]; exact hhi
        · rw [← Option.some.inj hk, hke]
          exact hnb n (List.mem_cons_self _ _)
      · rw [if_neg hke] at hk
        exact hr k d hk
    by_cases hb : (if isDel then dget st.del n else (false, st.del)).1 = true
    · rw [if_pos hb]
      exact ih _ (fun m hm => hnb m (List.mem_cons_of_mem _ hm)) hlo hhi hr
    · rw [if_neg hb]
      by_cases h2 : st.numAdded + 1 = cap
      · rw [if_pos h2]
        exact hr2
      · rw [if_neg h2]
        exact ih _ (fun m hm => hnb m (List.mem_cons_of_mem _ hm)) hlo hhi hr2

theorem frontier_loop_spec (mv : String → List String) (isDel : Bool) (cap : Int)
    (src t : String) (mh : Int) (r0 : List ((String × String) × Int)) :
    ∀ (ents : List String) (st : SState) (cur : List String),
      (∀ e, e ∈ ents → e ∈ reachSet mv t (st.hop - 1).toNat) →
      (∀ n, n ∈ cur → n ∈ reachSet mv t st.hop.toNat) →
      1 ≤ st.hop → st.hop ≤ mh →
      RecBound mv t mh r0 st.hrec →
      (frontier_loop mv isDel cap src ents st cur).1.hop = st.hop ∧
      (frontier_loop mv isDel cap src ents st cur).1.frontier = st.frontier ∧
      (∀ n, n ∈ (frontier_loop mv isDel cap src ents st cur).2 →
        n ∈ reachSet mv t st.hop.toNat) ∧
      RecBound mv t mh r0 (frontier_loop mv isDel cap src ents st cur).1.hrec ∧
      (∀ u, alookup (frontier_loop mv isDel cap src ents st cur).1.del u = some true ↔
        alookup st.del u = some true) := by
  intro ents
  induction ents with
  | nil =>
    intro st cur _ hcur _ _ hr
    exact ⟨rfl, rfl, hcur, hr, fun u => Iff.rfl⟩
  | cons ent rest ih =>
    intro st cur hents hcur hlo hhi hr
    obtain ⟨sh, sf, se, sd⟩ := scan_nbs_spec isDel cap src (mv ent) st
    have harith : (st.hop - 1).toNat + 1 = st.hop.toNat := by omega
    have hmv : ∀ n, n ∈ mv ent → n ∈ reachSet mv t st.hop.toNat := by
      intro n hn
      have he := hents ent (List.mem_cons_self _ _)
      have h2 := step_reach mv t (st.hop - 1).toNat ent n he hn
      rw [harith] at h2
      exact h2
    have hrec1 : RecBound mv t mh r0 (scan_nbs isDel cap src (mv ent) st).hrec :=
      scan_nbs_rec mv t mh r0 isDel cap src (mv ent) st hmv hlo hhi hr
    have key := ih
      { scan_nbs isDel cap src (mv ent) st with
        explored := (scan_nbs isDel cap src (mv ent) st).explored ++ [ent] }
      (cur ++ mv ent)
      (by
        have hgoal : ∀ e, e ∈ rest →
            e ∈ reachSet mv t ((scan_nbs isDel cap src (mv ent) st).hop - 1).toNat := by
          rw [sh]
          intro x hx
          exact hents x (List.mem_cons_of_mem _ hx)
        exact hgoal)
      (by
        have hgoal : ∀ n, n ∈ cur ++ mv ent →
            n ∈ reachSet mv t (scan_nbs isDel cap src (mv ent) st).hop.toNat := by
          rw [sh]
          intro n hn
          rcases List.mem_append.mp hn with h1 | h2
          · exact hcur n h1
          · exact hmv n h2
        exact hgoal)
      (by
        have hgoal : (1 : Int) ≤ (scan_nbs isDel cap src (mv ent) st).hop := by
          rw [sh]; exact hlo
        exact hgoal)
      (by
        have hgoal : (scan_nbs isDel cap src (mv ent) st).hop ≤ mh := by
          rw [sh]; exact hhi
        exact hgoal)
      hrec1
    refine ⟨?_, ?_, ?_, ?_, ?_⟩
    · show (frontier_loop mv isDel cap src rest
        { scan_nbs isDel cap src (mv ent) st with
          explored := (scan_nbs isDel cap src (mv ent) st).explored ++ [ent] }
        (cur ++ mv ent)).1.hop = st.hop
      exact key.1.trans sh
    · show (frontier_loop mv isDel cap src rest
        { scan_nbs isDel cap src (mv ent) st with
          explored := (scan_nbs isDel cap src (mv ent) st).explored ++ [ent] }
        (cur ++ mv ent)).1.frontier = st.frontier
      exact key.2.1.trans sf
    · show ∀ n, n ∈ (frontier_loop mv isDel cap src rest
        { scan_nbs isDel cap src (mv ent) st with
          explored := (scan_nbs isDel cap src (mv ent) st).explored ++ [ent] }
        (cur ++ mv ent)).2 → n ∈ reachSet mv t st.hop.toNat
      intro n hn
      have h5 : n ∈ reachSet mv t (scan_nbs isDel cap src (mv ent) st).hop.toNat :=
        key.2.2.1 n hn
      rw [sh] at h5
      exact h5
    · exact key.2.2.2.1
    · intro u
      exact (key.2.2.2.2 u).trans (sd u)

theorem hop_step_spec (mv : String → List String) (isDel : Bool) (cap : Int)
    (src t : String) (mh : Int) (r0 : List ((String × String) × Int))
    (st : SState)
    (hf : ∀ x, x ∈ st.frontier → x ∈ reachSet mv t (st.hop - 1).toNat)
    (hlo : 1 ≤ st.hop) (hhi : st.hop ≤ mh)
    (hr : RecBound mv t mh r0 st.hrec) :
    1 ≤ (hop_step mv isDel cap src st).hop ∧
    (∀ x, x ∈ (hop_step mv isDel cap src st).frontier →
      x ∈ reachSet mv t ((hop_step mv isDel cap src st).hop - 1).toNat) ∧
    RecBound mv t mh r0 (hop_step mv isDel cap src st).hrec ∧
    (∀ u, alookup (hop_step mv isDel cap src st).del u = some true ↔
      alookup st.del u = some true) := by
  obtain ⟨a, b, c, d, e⟩ := frontier_loop_spec mv isDel cap src t mh r0
    st.frontier st [] hf (by intro n hn; simp at hn) hlo hhi hr
  rw [hop_step]
  refine ⟨?_, ?_, d, e⟩
  · show 1 ≤ (frontier_loop mv isDel cap src st.frontier st []).1.hop + 1
    rw [a]; omega
  · intro x hx
    show x ∈ reachSet mv t
      ((frontier_loop mv isDel cap src st.frontier st []).1.hop + 1 - 1).toNat
    rw [a]
    have harith : (st.hop + 1 - 1).toNat = st.hop.toNat := by omega
    rw [harith]
    have hx2 := mem_of_mem_dedupAux _ _ _ hx
    have hx3 := (mem_diffList _ _ _).mp hx2
    exact c x hx3.1

theorem search_loop_spec (mv : String → List String) (isDel : Bool) (cap : Int)
    (mh : Int) (src t : String) (r0 : List ((String × String) × Int)) :
    ∀ (fuel : Nat) (st : SState),
      (∀ x, x ∈ st.frontier → x ∈ reachSet mv t (st.hop - 1).toNat) →
      1 ≤ st.hop →
      RecBound mv t mh r0 st.hrec →
      RecBound mv t mh r0 (search_loop mv isDel cap mh src fuel st).hrec ∧
      (∀ u, alookup (search_loop mv isDel cap mh src fuel st).del u = some true ↔
        alookup st.del u = some true) := by
  intro fuel
  induction fuel with
  | zero => intro st _ _ hr; exact ⟨hr, fun u => Iff.rfl⟩
  | succ fuel ih =>
    intro st hf hlo hr
    rw [search_loop]
    by_cases hc : (st.valid.length : Int) < cap ∧ st.hop ≤ mh
    · rw [if_pos hc]
      obtain ⟨a, b, c, d⟩ := hop_step_spec mv isDel cap src t mh r0 st hf hlo hc.2 hr
      obtain ⟨x, y⟩ := ih (hop_step mv isDel cap src st) b a c
      exact ⟨x, fun u => (y u).trans (d u)⟩
    · rw [if_neg hc]
      exact ⟨hr, fun u => Iff.rfl⟩

/-- Elimination lemma for a successful per-equivalence search: the anchor
resolved, all configuration fields are untouched, the deletion map keeps
exactly the same true entries, and every hop-record binding is either
pre-existing or in bounds and reachable. -/
theorem subs_elim (g : Gen) (s t : String) (p : List (String × String) × Gen)
    (h : subs_from_an_equiv g s t = some p) :
    t ∈ g.tgtClassIndex ∧
    p.2.rel = g.rel ∧ p.2.move = g.move ∧ p.2.max_hop = g.max_hop ∧
    p.2.srcClassIndex = g.srcClassIndex ∧ p.2.tgtClassIndex = g.tgtClassIndex ∧
    p.2.equiv_pairs = g.equiv_pairs ∧ p.2.sub_pairs = g.sub_pairs ∧
    p.2.max_subs_cap = g.max_subs_cap ∧
    p.2.is_delete_equiv_tgt = g.is_delete_equiv_tgt ∧
    (∀ u, alookup p.2.delete_status u = some true ↔
      alookup g.delete_status u = some true) ∧
    RecBound g.move t g.max_hop g.hop_record p.2.hop_record := by
  have ht : t ∈ g.tgtClassIndex := by
    by_contra hc
    rw [subs_from_an_equiv, if_neg hc] at h
    exact Option.noConfusion h
  rw [subs_from_an_equiv, if_pos ht] at h
  have hp := Option.some.inj h
  subst hp
  have hinit : ∀ x, x ∈ (searchInit g t).frontier →
      x ∈ reachSet g.move t ((searchInit g t).hop - 1).toNat := by
    intro x hx
    rcases List.mem_cons.mp hx with h1 | h2
    · subst h1
      show x ∈ reachSet g.move x ((1 : Int) - 1).toNat
      simp [reachSet]
    · simp at h2
  obtain ⟨hr, hd⟩ := search_loop_spec g.move g.is_delete_equiv_tgt g.max_subs_cap
    g.max_hop s t g.hop_record g.max_hop.toNat (searchInit g t) hinit
    (by show (1 : Int) ≤ 1; omega)
    (fun k d hk => Or.inl hk)
  exact ⟨ht, rfl, rfl, rfl, rfl, rfl, rfl, rfl, rfl, rfl, hd, hr⟩

/-- Characterization of the static pre-pass: it succeeds only when every
listed target resolves, it touches nothing but the deletion map, and it
marks exactly the listed targets that have a neighbour in the search
direction. -/
theorem static_mark_spec :
    ∀ (l : List (String × String)) (g g1 : Gen), static_mark g l = some g1 →
      g1.rel = g.rel ∧ g1.move = g.move ∧ g1.max_hop = g.max_hop ∧
      g1.srcClassIndex = g.srcClassIndex ∧ g1.tgtClassIndex = g.tgtClassIndex ∧
      g1.equiv_pairs = g.equiv_pairs ∧ g1.sub_pairs = g.sub_pairs ∧
      g1.max_subs_cap = g.max_subs_cap ∧ g1.is_delete_equiv_tgt = g.is_delete_equiv_tgt ∧
      g1.hop_record = g.hop_record ∧ g1.construct_status = g.construct_status ∧
      (∀ s u, (s, u) ∈ l → u ∈ g.tgtClassIndex) ∧
      (∀ u, alookup g1.delete_status u = some true ↔
        (alookup g.delete_status u = some true ∨
          ∃ s, (s, u) ∈ l ∧ g.move u ≠ [])) := by
  intro l
  induction l with
  | nil =>
    intro g g1 h
    have hg : g = g1 := Option.some.inj h
    subst hg
    refine ⟨rfl, rfl, rfl, rfl, rfl, rfl, rfl, rfl, rfl, rfl, rfl, ?_, ?_⟩
    · intro s u hm; simp at hm
    · intro u; simp
  | cons p l ih =>
    obtain ⟨s0, t0⟩ := p
    intro g g1 h
    simp only [static_mark] at h
    by_cases hi : t0 ∈ g.tgtClassIndex
    · rw [if_pos hi] at h
      by_cases hm : g.move t0 ≠ []
      · rw [if_pos hm] at h
        obtain ⟨e1, e2, e3, e4, e5, e6, e7, e8, e9, e10, e11, hmem, hiff⟩ :=
          ih { g with delete_status := aset g.delete_status t0 true } g1 h
        refine ⟨e1, e2, e3, e4, e5, e6, e7, e8, e9, e10, e11, ?_, ?_⟩
        · intro s u hu
          rcases List.mem_cons.mp hu with h1 | h2
          · rw [(Prod.mk.injEq _ _ _ _).mp h1 |>.2]; exact hi
          · exact hmem s u h2
        · intro u
          rw [hiff u]
          show alookup (aset g.delete_status t0 true) u = some true ∨
              (∃ s, (s, u) ∈ l ∧ g.move u ≠ []) ↔ _
          rw [alookup_aset]
          constructor
          · intro hcase
            rcases hcase with h1 | h2
            · by_cases he : u = t0
              · subst he
                right
                exact ⟨s0, List.mem_cons_self _ _, hm⟩
              · rw [if_neg he] at h1
                exact Or.inl h1
            · obtain ⟨s, hs1, hs2⟩ := h2
              exact Or.inr ⟨s, List.mem_cons_of_mem _ hs1, hs2⟩
          · intro hcase
            rcases hcase with h1 | h2
            · by_cases he : u = t0
              · left; rw [if_pos he]
              · left; rw [if_neg he]; exact h1
            · obtain ⟨s, hs1, hs2⟩ := h2
              rcases List.mem_cons.mp hs1 with hh | hh
              · left
                have he : u = t0 := ((Prod.mk.injEq _ _ _ _).mp hh).2
                rw [if_pos he]
              · exact Or.inr ⟨s, hh, hs2⟩
      · rw [if_neg hm] at h
        obtain ⟨e1, e2, e3, e4, e5, e6, e7, e8, e9, e10, e11, hmem, hiff⟩ := ih g g1 h
        refine ⟨e1, e2, e3, e4, e5, e6, e7, e8, e9, e10, e11, ?_, ?_⟩
        · intro s u hu
          rcases List.mem_cons.mp hu with h1 | h2
          · rw [(Prod.mk.injEq _ _ _ _).mp h1 |>.2]; exact hi
          · exact hmem s u h2
        · intro u
          rw [hiff u]
          constructor
          · intro hcase
            rcases hcase with h1 | h2
            · exact Or.inl h1
            · obtain ⟨s, hs1, hs2⟩ := h2
              exact Or.inr ⟨s, List.mem_cons_of_mem _ hs1, hs2⟩
          · intro hcase
            rcases hcase with h1 | h2
            · exact Or.inl h1
            · obtain ⟨s, hs1, hs2⟩ := h2
              rcases List.mem_cons.mp hs1 with hh | hh
              · exfalso
                have he : u = t0 := ((Prod.mk.injEq _ _ _ _).mp hh).2
                rw [he] at hs2
                exact hs2 (not_not.mp hm)
              · exact Or.inr ⟨s, hh, hs2⟩
    · rw [if_neg hi] at h
      exact Option.noConfusion h

/-- Characterization of the static main pass: configuration fields are
untouched and the deletion map keeps exactly the same true entries. -/
theorem static_main_spec :
    ∀ (l : List (String × String)) (g g2 : Gen), static_main g l = some g2 →
      g2.rel = g.rel ∧ g2.move = g.move ∧ g2.max_hop = g.max_hop ∧
      g2.srcClassIndex = g.srcClassIndex ∧ g2.tgtClassIndex = g.tgtClassIndex ∧
      g2.equiv_pairs = g.equiv_pairs ∧ g2.max_subs_cap = g.max_subs_cap ∧
      g2.is_delete_equiv_tgt = g.is_delete_equiv_tgt ∧
      (∀ u, alookup g2.delete_status u = some true ↔
        alookup g.delete_status u = some true) := by
  intro l
  induction l with
  | nil =>
    intro g g2 h
    have hg : g = g2 := Option.some.inj h
    subst hg
    exact ⟨rfl, rfl, rfl, rfl, rfl, rfl, rfl, rfl, fun u => Iff.rfl⟩
  | cons p l ih =>
    obtain ⟨s, t⟩ := p
    intro g g2 h
    simp only [static_main] at h
    cases hsub : subs_from_an_equiv g s t with
    | none => rw [hsub] at h; exact Option.noConfusion h
    | some q =>
      rw [hsub] at h
      have h2 : static_main { q.2 with sub_pairs := q.2.sub_pairs ++ q.1 } l = some g2 := h
      obtain ⟨e1, e2, e3, e4, e5, e6, e7, e8, e9⟩ := ih _ g2 h2
      obtain ⟨_, f1, f2, f3, f4, f5, f6, f7, f8, f9, f10, _⟩ := subs_elim g s t q hsub
      refine ⟨e1.trans f1, e2.trans f2, e3.trans f3, e4.trans f4, e5.trans f5,
        e6.trans f6, e7.trans f8, e8.trans f9, ?_⟩
      intro u
      exact (e9 u).trans (f10 u)

/-- Decomposition of a successful static run into its three stages. -/
theorem static_elim (g g' : Gen) (h : static_subs_construct g = some g') :
    ∃ g1 g2,
      (if (renew_subs g).is_delete_equiv_tgt then
        static_mark (renew_subs g) (renew_subs g).equiv_pairs
       else some (renew_subs g)) = some g1 ∧
      static_main g1 g1.equiv_pairs = some g2 ∧
      g' = { g2 with sub_pairs := uniqify g2.sub_pairs } := by
  simp only [static_subs_construct] at h
  cases h1 : (if (renew_subs g).is_delete_equiv_tgt then
      static_mark (renew_subs g) (renew_subs g).equiv_pairs
    else some (renew_subs g)) with
  | none => rw [h1] at h; exact Option.noConfusion h
  | some g1 =>
    rw [h1] at h
    have h' : (match static_main g1 g1.equiv_pairs with
      | none => none
      | some g2 => some { g2 with sub_pairs := uniqify g2.sub_pairs }) = some g' := h
    cases h2 : static_main g1 g1.equiv_pairs with
    | none => rw [h2] at h'; exact Option.noConfusion h'
    | some g2 =>
      rw [h2] at h'
      exact ⟨g1, g2, rfl, h2, (Option.some.inj h').symm⟩

/-- The two branches of an online step when the deletion flag is on:
skip exactly when the own target of the pair is already marked constructed
(the skip changes nothing but the vivified construct map), otherwise run
the per-equivalence search followed by the online deletion marking. -/
theorem online_step_char (g : Gen) (s t : String)
    (hdel : g.is_delete_equiv_tgt = true) :
    ((dget g.construct_status t).1 = true →
      online_step g s t =
        some { g with construct_status := (dget g.construct_status t).2 }) ∧
    ((dget g.construct_status t).1 = false →
      online_step g s t =
        (subs_from_an_equiv
          { g with construct_status := (dget g.construct_status t).2 } s t).bind
          (fun p => some (online_after p.2 t p.1))) := by
  constructor
  · intro hc
    simp [online_step, hdel, hc]
  · intro hc
    simp [online_step, hdel, hc]

/-- Unfolding of online_after when the deletion mark fires. -/
theorem online_after_pos (g1 : Gen) (t : String) (cur : List (String × String))
    (hcond : (g1.is_delete_equiv_tgt && !cur.isEmpty) = true) :
    online_after g1 t cur =
      { g1 with
        delete_status := aset g1.delete_status t true
        sub_pairs := g1.sub_pairs ++ cur } := by
  simp only [online_after, hcond, if_true]

/-- Unfolding of online_after when the deletion mark does not fire. -/
theorem online_after_neg (g1 : Gen) (t : String) (cur : List (String × String))
    (hcond : (g1.is_delete_equiv_tgt && !cur.isEmpty) = false) :
    online_after g1 t cur = { g1 with sub_pairs := g1.sub_pairs ++ cur } := by
  simp only [online_after, hcond, Bool.false_eq_true, if_false]

/-- Effect of one online step on the deletion map when the deletion flag
is on: an entry becomes true exactly when it was already true, or it is
the target of this pair, the pair was not skipped, and its search yielded at
least one accepted neighbour. -/
theorem online_step_delete (g : Gen) (s t : String) (g1 : Gen)
    (hdel : g.is_delete_equiv_tgt = true) (h : online_step g s t = some g1) :
    g1.rel = g.rel ∧ g1.move = g.move ∧ g1.max_hop = g.max_hop ∧
    g1.srcClassIndex = g.srcClassIndex ∧ g1.tgtClassIndex = g.tgtClassIndex ∧
    g1.equiv_pairs = g.equiv_pairs ∧ g1.max_subs_cap = g.max_subs_cap ∧
    g1.is_delete_equiv_tgt = g.is_delete_equiv_tgt ∧
    (∀ u, alookup g1.delete_status u = some true ↔
      (alookup g.delete_status u = some true ∨
        (u = t ∧ (dget g.construct_status t).1 = false ∧
          ∃ cur q2, subs_from_an_equiv
            { g with construct_status := (dget g.construct_status t).2 } s t
              = some (cur, q2) ∧ cur ≠ []))) := by
  obtain ⟨hskip, hrun⟩ := online_step_char g s t hdel
  cases hc : (dget g.construct_status t).1 with
  | true =>
    rw [hskip hc] at h
    have hg1 : { g with construct_status := (dget g.construct_status t).2 } = g1 :=
      Option.some.inj h
    subst hg1
    refine ⟨rfl, rfl, rfl, rfl, rfl, rfl, rfl, rfl, ?_⟩
    intro u
    constructor
    · intro h1; exact Or.inl h1
    · intro h1
      rcases h1 with h1 | h1
      · exact h1
      · exact Bool.noConfusion h1.2.1
  | false =>
    rw [hrun hc] at h
    cases hsub : subs_from_an_equiv
        { g with construct_status := (dget g.construct_status t).2 } s t with
    | none => rw [hsub] at h; exact Option.noConfusion h
    | some q =>
      rw [hsub] at h
      have hg1 : online_after q.2 t q.1 = g1 := Option.some.inj h
      obtain ⟨_, f1, f2, f3, f4, f5, f6, f7, f8, f9, f10, _⟩ := subs_elim _ s t q hsub
      have hdel2 : q.2.is_delete_equiv_tgt = true := f9.trans hdel
      cases hemp : q.1.isEmpty with
      | true =>
        have hcond : (q.2.is_delete_equiv_tgt && !q.1.isEmpty) = false := by
          rw [hdel2, hemp]; rfl
        rw [online_after_neg q.2 t q.1 hcond] at hg1
        subst hg1
        refine ⟨f1, f2, f3, f4, f5, f6, f8, f9, ?_⟩
        intro u
        have hiff : alookup q.2.delete_status u = some true ↔
            alookup g.delete_status u = some true := f10 u
        rw [show alookup ({ q.2 with sub_pairs := q.2.sub_pairs ++ q.1 } :
          Gen).delete_status u = alookup q.2.delete_status u from rfl, hiff]
        constructor
        · intro h1; exact Or.inl h1
        · intro h1
          rcases h1 with h1 | h1
          · exact h1
          · exfalso
            obtain ⟨_, _, cur, q2, hsub2, hne⟩ := h1
            have hq := Option.some.inj hsub2
            apply hne
            have hcur : cur = q.1 := by rw [hq]
            rw [hcur]
            cases hval : q.1 with
            | nil => rfl
            | cons a l =>
              rw [hval] at hemp
              exact Bool.noConfusion hemp
      | false =>
        have hcond : (q.2.is_delete_equiv_tgt && !q.1.isEmpty) = true := by
          rw [hdel2, hemp]; rfl
        rw [online_after_pos q.2 t q.1 hcond] at hg1
        subst hg1
        refine ⟨f1, f2, f3, f4, f5, f6, f8, f9, ?_⟩
        intro u
        rw [show alookup ({ q.2 with
          delete_status := aset q.2.delete_status t true
          sub_pairs := q.2.sub_pairs ++ q.1 } : Gen).delete_status u
            = alookup (aset q.2.delete_status t true) u from rfl]
        rw [alookup_aset]
        by_cases he : u = t
        · rw [if_pos he]
          constructor
          · intro _
            refine Or.inr ⟨he, rfl, q.1, q.2, rfl, ?_⟩
            intro hcur
            rw [hcur] at hemp
            exact Bool.noConfusion hemp
          · intro _; rfl
        · rw [if_neg he]
          rw [f10 u]
          constructor
          · intro h1; exact Or.inl h1
          · intro h1
            rcases h1 with h1 | h1
            · exact h1
            · exact absurd h1.1 he

/-- Coarse effect of one online step, valid for both deletion-flag
settings: configuration is untouched and any new true deletion entry is
this step's resolved target, hence in the target class index. -/
theorem online_step_elim (g : Gen) (s t : String) (g1 : Gen)
    (h : online_step g s t = some g1) :
    g1.move = g.move ∧ g1.tgtClassIndex = g.tgtClassIndex ∧
    g1.equiv_pairs = g.equiv_pairs ∧
    g1.is_delete_equiv_tgt = g.is_delete_equiv_tgt ∧
    (∀ u, alookup g1.delete_status u = some true →
      alookup g.delete_status u = some true ∨ u ∈ g.tgtClassIndex) := by
  cases hdel : g.is_delete_equiv_tgt with
  | true =>
    obtain ⟨_, f2, _, _, f5, f6, _, f8, f9⟩ := online_step_delete g s t g1 hdel h
    refine ⟨f2, f5, f6, f8.trans hdel, ?_⟩
    intro u hu
    rcases (f9 u).mp hu with h1 | h1
    · exact Or.inl h1
    · right
      obtain ⟨heq, _, cur, q2, hsub, _⟩ := h1
      have hmem := (subs_elim _ s t (cur, q2) hsub).1
      rw [heq]
      exact hmem
  | false =>
    have h' : (subs_from_an_equiv g s t).bind
        (fun p => some (online_after p.2 t p.1)) = some g1 := by
      have hh := h
      simp only [online_step, hdel, Bool.false_eq_true, if_false,
        Bool.false_and, Bool.and_false] at hh
      exact hh
    cases hsub : subs_from_an_equiv g s t with
    | none => rw [hsub] at h'; exact Option.noConfusion h'
    | some q =>
      rw [hsub] at h'
      have hg1 : online_after q.2 t q.1 = g1 := Option.some.inj h'
      obtain ⟨_, f1, f2, f3, f4, f5, f6, f7, f8, f9, f10, _⟩ := subs_elim _ s t q hsub
      have hcond : (q.2.is_delete_equiv_tgt && !q.1.isEmpty) = false := by
        rw [f9.trans hdel]; rfl
      rw [online_after_neg q.2 t q.1 hcond] at hg1
      subst hg1
      refine ⟨f2, f5, f6, f9.trans hdel, ?_⟩
      intro u hu
      exact Or.inl ((f10 u).mp hu)

/-- A target class ends the online pass marked deleted exactly when it
entered it marked deleted or some processed pair yields its deletion. -/
theorem online_loop_delete_iff :
    ∀ (l : List (String × String)) (g g' : Gen),
      g.is_delete_equiv_tgt = true → online_loop g l = some g' →
      ∀ u, alookup g'.delete_status u = some true ↔
        (alookup g.delete_status u = some true ∨ YieldsDel g l u) := by
  intro l
  induction l with
  | nil =>
    intro g g' _ h u
    have hg : g = g' := Option.some.inj h
    subst hg
    constructor
    · intro h1; exact Or.inl h1
    · intro h1
      rcases h1 with h1 | h1
      · exact h1
      · cases h1
  | cons p l ih =>
    obtain ⟨s, t0⟩ := p
    intro g g' hdel h u
    simp only [online_loop] at h
    cases hstep : online_step g s t0 with
    | none => rw [hstep] at h; exact Option.noConfusion h
    | some g1 =>
      rw [hstep] at h
      have h2 : online_loop g1 l = some g' := h
      obtain ⟨_, _, _, _, _, _, _, f8, f9⟩ := online_step_delete g s t0 g1 hdel hstep
      have hdel1 : g1.is_delete_equiv_tgt = true := f8.trans hdel
      have key := ih g1 g' hdel1 h2 u
      rw [key]
      rw [f9 u]
      constructor
      · intro h1
        rcases h1 with (h1 | h1) | h1
        · exact Or.inl h1
        · right
          obtain ⟨he, hc, cur, q2, hsub, hne⟩ := h1
          subst he
          exact YieldsDel.found g s u l cur q2 hc hsub hne
        · exact Or.inr (YieldsDel.later g (s, t0) l u g1 hstep h1)
      · intro h1
        rcases h1 with h1 | h1
        · exact Or.inl (Or.inl h1)
        · cases h1 with
          | found _ s' t' rest' cur q2 hc hsub hne =>
            exact Or.inl (Or.inr ⟨rfl, hc, cur, q2, hsub, hne⟩)
          | later _ p' rest' t' g1' hstep' hy =>
            have hg1 : g1 = g1' := Option.some.inj (hstep.symm.trans hstep')
            subst hg1
            exact Or.inr hy

/-- Decomposition of a successful online run into loop and final
deduplication. -/
theorem online_elim (g g' : Gen) (h : online_subs_construct g = some g') :
    ∃ g1, online_loop (renew_subs g) (renew_subs g).equiv_pairs = some g1 ∧
      g' = { g1 with sub_pairs := uniqify g1.sub_pairs } := by
  simp only [online_subs_construct] at h
  cases h1 : online_loop (renew_subs g) (renew_subs g).equiv_pairs with
  | none => rw [h1] at h; exact Option.noConfusion h
  | some g1 =>
    rw [h1] at h
    exact ⟨g1, rfl, (Option.some.inj h).symm⟩

/-- Full behaviour of the preserved-targets scan: the returned list is
the unfolded identifiers of scanned keys whose flag reads false; the
deletion map afterwards keeps every pre-existing binding unchanged, has
acquired the scanned keys absent before with value false, has acquired
nothing else, and has exactly the same true entries. -/
theorem preserved_loop_spec :
    ∀ (ks : List String) (del : List (String × Bool)) (acc : List String),
      (preserved_loop del acc ks).1 =
        acc ++ (ks.filter (fun k => !((alookup del k).getD false))).map unfold_iri ∧
      (∀ k v, alookup del k = some v → alookup (preserved_loop del acc ks).2 k = some v) ∧
      (∀ k, k ∈ ks → alookup del k = none →
        alookup (preserved_loop del acc ks).2 k = some false) ∧
      (∀ k, alookup del k = none → ¬ k ∈ ks →
        alookup (preserved_loop del acc ks).2 k = none) ∧
      (∀ k, alookup (preserved_loop del acc ks).2 k = some true ↔
        alookup del k = some true) := by
  intro ks
  induction ks with
  | nil =>
    intro del acc
    refine ⟨by simp [preserved_loop], ?_, ?_, ?_, ?_⟩
    · intro k v h; exact h
    · intro k hk; simp at hk
    · intro k h _; exact h
    · intro k; exact Iff.rfl
  | cons k0 ks ih =>
    intro del acc
    simp only [preserved_loop]
    obtain ⟨e1, e2, e3, e4, e5⟩ :=
      ih (dget del k0).2 (if (dget del k0).1 then acc else acc ++ [unfold_iri k0])
    have hfc : ks.filter (fun k => !((alookup (dget del k0).2 k).getD false)) =
        ks.filter (fun k => !((alookup del k).getD false)) := by
      apply List.filter_congr
      intro x _
      rw [dget_getD]
    refine ⟨?_, ?_, ?_, ?_, ?_⟩
    · rw [e1, hfc, dget_fst]
      cases hv : (alookup del k0).getD false with
      | true =>
        rw [if_pos rfl]
        have hfil : List.filter (fun k => !((alookup del k).getD false)) (k0 :: ks) =
            List.filter (fun k => !((alookup del k).getD false)) ks := by
          rw [List.filter_cons]
          simp [hv]
        rw [hfil]
      | false =>
        rw [if_neg (fun hc => Bool.noConfusion hc)]
        have hfil : List.filter (fun k => !((alookup del k).getD false)) (k0 :: ks) =
            k0 :: List.filter (fun k => !((alookup del k).getD false)) ks := by
          rw [List.filter_cons]
          simp [hv]
        rw [hfil]
        simp
    · intro k v h
      exact e2 k v (alookup_dget_some del k0 k v h)
    · intro k hk hnone
      by_cases he : k = k0
      · subst he
        apply e2 k false
        rw [alookup_dget, if_pos ⟨rfl, hnone⟩]
      · rcases List.mem_cons.mp hk with h1 | h1
        · exact absurd h1 he
        · apply e3 k h1
          rw [alookup_dget, if_neg (fun hc => he hc.1)]
          exact hnone
    · intro k hnone hk
      have hne : ¬ k = k0 := fun hc => hk (hc ▸ List.mem_cons_self _ _)
      apply e4 k
      · rw [alookup_dget, if_neg (fun hc => hne hc.1)]
        exact hnone
      · intro hc; exact hk (List.mem_cons_of_mem _ hc)
    · intro k
      exact (e5 k).trans (alookup_dget_true del k0 k)

/-- IRI unfolding is injective on abbreviated identifiers. -/
theorem unfold_iri_inj (a b : String) (h : unfold_iri a = unfold_iri b) : a = b := by
  have h2 := congrArg String.data h
  rw [show (unfold_iri a).data = "IRI:".data ++ a.data from String.data_append _ _,
    show (unfold_iri b).data = "IRI:".data ++ b.data from String.data_append _ _] at h2
  exact String.ext (List.append_cancel_left h2)

theorem getD_true_iff (d : List (String × Bool)) (k : String) :
    ((alookup d k).getD false = true) ↔ alookup d k = some true := by
  cases h : alookup d k with
  | none => simp
  | some b => simp

/-- Coarse effect of the whole online loop: the target class index is
untouched and any true deletion entry was true initially or names an
index member. -/
theorem online_loop_elim :
    ∀ (l : List (String × String)) (g g1 : Gen), online_loop g l = some g1 →
      g1.tgtClassIndex = g.tgtClassIndex ∧
      (∀ u, alookup g1.delete_status u = some true →
        alookup g.delete_status u = some true ∨ u ∈ g.tgtClassIndex) := by
  intro l
  induction l with
  | nil =>
    intro g g1 h
    have hg := Option.some.inj h
    subst hg
    exact ⟨rfl, fun u hu => Or.inl hu⟩
  | cons p l ih =>
    obtain ⟨s, t⟩ := p
    intro g g1 h
    simp only [online_loop] at h
    cases hstep : online_step g s t with
    | none => rw [hstep] at h; exact Option.noConfusion h
    | some gm =>
      rw [hstep] at h
      have h2 : online_loop gm l = some g1 := h
      obtain ⟨i1, i2⟩ := ih gm g1 h2
      obtain ⟨e1, e2, e3, e4, e5⟩ := online_step_elim g s t gm hstep
      refine ⟨i1.trans e2, ?_⟩
      intro u hu
      rcases i2 u hu with h3 | h3
      · exact e5 u h3
      · rw [e2] at h3
        exact Or.inr h3

/-! The claims. -/

/-- C1: the claim that subs_from_an_equiv never accepts more than
max_subs_ratio neighbours is violated by the code.  With cap 3, the
static run on genA (one equivalence pair) accepts five neighbours: the
break leaves only the neighbour list of the current frontier node, and the
equality test num_added = cap never fires again once the counter has
stepped past the cap while scanning a later frontier node. -/
theorem c1_cap_violated_eval :
    (static_subs_construct genA).map (fun x => x.sub_pairs.length) = some 5 ∧
    genA.max_subs_cap = 3 :=
  ⟨by decide, rfl⟩

/-- C2 fails on the code: in the genB run the neighbour C is reachable
from the anchor at depth 1 (and not at depth 0), so the first BFS visit
records hop 1, yet the final hop record stores 2 for it: a later
re-visit through D overwrote the binding with a larger depth. -/
theorem c2_first_depth_counterexample :
    (subs_from_an_equiv genB "A" "B").map
      (fun p => alookup p.2.hop_record ("A", "C")) = some (some 2) ∧
    "C" ∈ reachSet genB.move "B" 1 ∧ ¬ "C" ∈ reachSet genB.move "B" 0 :=
  ⟨by decide, by decide, by decide⟩

/-- C2 (amended): every hop-record binding written by subs_from_an_equiv
carries a depth between 1 and max_hop at which the recorded neighbour is
reachable from the equivalence anchor, hence at least the minimum BFS
depth of that neighbour; a neighbour re-encountered at a later hop has
its record overwritten, so the stored value is the depth of the last
recording visit, not necessarily the first. -/
theorem c2_hop_record_reachable (g : Gen) (s t : String)
    (p : List (String × String) × Gen)
    (h : subs_from_an_equiv g s t = some p) :
    ∀ k d, alookup p.2.hop_record k = some d →
      alookup g.hop_record k = some d ∨
        (1 ≤ d ∧ d ≤ g.max_hop ∧ k.2 ∈ reachSet g.move t d.toNat) := by
  obtain ⟨_, _, _, _, _, _, _, _, _, _, _, hrec⟩ := subs_elim g s t p h
  exact hrec

/-- Witness for the amended C2 theorem at the genB run. -/
theorem c2_hop_witness :
    alookup genB.hop_record ("A", "C") = some 2 ∨
      (1 ≤ (2 : Int) ∧ (2 : Int) ≤ genB.max_hop ∧
        "C" ∈ reachSet genB.move "B" (2 : Int).toNat) :=
  c2_hop_record_reachable genB "A" "B" outB rfl ("A", "C") 2 (by decide)

/-- C6: both top-level construction algorithms deduplicate the
accumulated pairs before returning, so the final subsumption-pair list
of static_subs_construct and of online_subs_construct contains no
repeated pair. -/
theorem c6_no_duplicate_pairs (g gs go : Gen) :
    (static_subs_construct g = some gs → gs.sub_pairs.Nodup) ∧
    (online_subs_construct g = some go → go.sub_pairs.Nodup) := by
  constructor
  · intro h
    obtain ⟨g1, g2, _, _, h3⟩ := static_elim g gs h
    rw [h3]
    exact uniqify_nodup _
  · intro h
    obtain ⟨g1, h1, h2⟩ := online_elim g go h
    rw [h2]
    exact uniqify_nodup _

/-- Witness: the static and online runs on genC produce duplicate-free
pair lists. -/
theorem c6_nodup_witness :
    outC_static.sub_pairs.Nodup ∧ outC_online.sub_pairs.Nodup :=
  ⟨(c6_no_duplicate_pairs genC outC_static outC_online).1 rfl,
   (c6_no_duplicate_pairs genC outC_static outC_online).2 rfl⟩

/-- C7: every hop distance stored in the hop record by a successful
subs_from_an_equiv call lies between 1 and max_hop inclusive: each
binding afterwards is a pre-existing one or satisfies the bounds. -/
theorem c7_hop_within_bounds (g : Gen) (s t : String)
    (p : List (String × String) × Gen)
    (h : subs_from_an_equiv g s t = some p) :
    ∀ k d, alookup p.2.hop_record k = some d →
      alookup g.hop_record k = some d ∨ (1 ≤ d ∧ d ≤ g.max_hop) := by
  obtain ⟨_, _, _, _, _, _, _, _, _, _, _, hrec⟩ := subs_elim g s t p h
  intro k d hk
  rcases hrec k d hk with h1 | h1
  · exact Or.inl h1
  · exact Or.inr ⟨h1.1, h1.2.1⟩

/-- Witness: in the genC run the binding for (A, C) is at hop 1, within
the bounds. -/
theorem c7_hop_witness :
    alookup genC.hop_record ("A", "C") = some 1 ∨
      (1 ≤ (1 : Int) ∧ (1 : Int) ≤ genC.max_hop) :=
  c7_hop_within_bounds genC "A" "B" outC rfl ("A", "C") 1 (by decide)

/-- C8: construction fails with the configuration error exactly when the
relation direction is neither recognized symbol, and in that case it
does so for every store content and sample choice, showing the failure
precedes the reading of the equivalence store and the creation of any
generation record; for a recognized symbol this error never occurs. -/
theorem c8_rel_config_error (srcIdx tgtIdx : List String)
    (mS mB : String → List String) (rel : String)
    (stored : List (String × String)) (cap : Int) (isDel : Bool)
    (mh : Int) (pick : Nat) :
    (initGen srcIdx tgtIdx mS mB rel stored cap isDel mh pick =
        Except.error InitErr.configError ↔ (rel ≠ "<" ∧ rel ≠ ">")) ∧
    ((rel ≠ "<" ∧ rel ≠ ">") → ∀ (stored2 : List (String × String)) (pick2 : Nat),
      initGen srcIdx tgtIdx mS mB rel stored2 cap isDel mh pick2 =
        Except.error InitErr.configError) := by
  by_cases hr : rel = "<" ∨ rel = ">"
  · have hne : ∀ (st2 : List (String × String)) (p2 : Nat),
        initGen srcIdx tgtIdx mS mB rel st2 cap isDel mh p2 ≠
          Except.error InitErr.configError := by
      intro st2 p2
      simp only [initGen]
      rw [if_pos hr]
      by_cases hlen : st2.length = 0
      · rw [if_pos hlen]
        intro hc
        exact InitErr.noConfusion (Except.error.inj hc)
      · rw [if_neg hlen]
        by_cases hchk : (st2.getD (p2 % st2.length) ("", "")).1 ∈ srcIdx ∧
            (st2.getD (p2 % st2.length) ("", "")).2 ∈ tgtIdx
        · rw [if_pos hchk]
          intro hc
          exact Except.noConfusion hc
        · rw [if_neg hchk]
          intro hc
          exact InitErr.noConfusion (Except.error.inj hc)
    constructor
    · constructor
      · intro h
        exact absurd h (hne stored pick)
      · intro hcon
        exfalso
        rcases hr with hr | hr
        · exact hcon.1 hr
        · exact hcon.2 hr
    · intro hcon
      exfalso
      rcases hr with hr | hr
      · exact hcon.1 hr
      · exact hcon.2 hr
  · have heq : ∀ (st2 : List (String × String)) (p2 : Nat),
        initGen srcIdx tgtIdx mS mB rel st2 cap isDel mh p2 =
          Except.error InitErr.configError := by
      intro st2 p2
      simp only [initGen]
      rw [if_neg hr]
    constructor
    · constructor
      · intro _
        exact ⟨fun hc => hr (Or.inl hc), fun hc => hr (Or.inr hc)⟩
      · intro _
        exact heq stored pick
    · intro _ st2 p2
      exact heq st2 p2

/-- Witness: an unrecognized relation symbol produces the configuration
error. -/
theorem c8_config_witness :
    initGen ["a"] ["b"] (fun _ => []) (fun _ => []) "~" [("a", "b")] 1 true 3 0 =
      Except.error InitErr.configError :=
  (c8_rel_config_error ["a"] ["b"] (fun _ => []) (fun _ => []) "~" [("a", "b")]
    1 true 3 0).2 (by decide) [("a", "b")] 0

/-- C10: with max_hop below 1 or a nonpositive cap, the while condition
is false on entry, so subs_from_an_equiv on any resolving target returns
the empty list and the generator completely unchanged. -/
theorem c10_degenerate_config (g : Gen) (s t : String)
    (hcfg : g.max_hop < 1 ∨ g.max_subs_cap ≤ 0) (ht : t ∈ g.tgtClassIndex) :
    subs_from_an_equiv g s t = some ([], g) := by
  rw [subs_from_an_equiv, if_pos ht]
  have hst : search_loop g.move g.is_delete_equiv_tgt g.max_subs_cap g.max_hop s
      g.max_hop.toNat (searchInit g t) = searchInit g t := by
    rcases hcfg with hc | hc
    · have h0 : g.max_hop.toNat = 0 := by omega
      rw [h0]
      rfl
    · have hnc : ¬ (((searchInit g t).valid.length : Int) < g.max_subs_cap ∧
          (searchInit g t).hop ≤ g.max_hop) := by
        intro hcond
        have h1 : ((0 : Nat) : Int) < g.max_subs_cap := hcond.1
        omega
      cases hf : g.max_hop.toNat with
      | zero => rfl
      | succ n =>
        rw [search_loop, if_neg hnc]
  have hres : subs_result g s t = ([], g) := by
    simp only [subs_result, searchOut, hst]
    rfl
  rw [hres]

/-- Witness: on genD (max_hop 0) with its resolving target the search
returns nothing and changes nothing. -/
theorem c10_degenerate_witness :
    subs_from_an_equiv genD "A" "B" = some ([], genD) :=
  c10_degenerate_config genD "A" "B" (Or.inl (by decide)) (by decide)

/-- C3: after a static run with the deletion flag on, a target class is
marked deleted exactly when it is the target of some equivalence pair
and has a neighbour in the search direction; moreover the marks equal
those fixed by the pre-pass, so the main pass neither adds nor removes
any deletion mark. -/
theorem c3_static_deletion_prepass (g g' : Gen)
    (hdel : g.is_delete_equiv_tgt = true)
    (hrun : static_subs_construct g = some g') :
    (∀ u, alookup g'.delete_status u = some true ↔
      (∃ s, (s, u) ∈ g.equiv_pairs ∧ g.move u ≠ [])) ∧
    (∃ gp, static_mark (renew_subs g) (renew_subs g).equiv_pairs = some gp ∧
      ∀ u, (alookup g'.delete_status u = some true ↔
        alookup gp.delete_status u = some true)) := by
  obtain ⟨g1, g2, h1, h2, h3⟩ := static_elim g g' hrun
  have hdel2 : (renew_subs g).is_delete_equiv_tgt = true := hdel
  rw [if_pos hdel2] at h1
  obtain ⟨m1, m2, m3, m4, m5, m6, m7, m8, m9, m10, m11, hmem, hiff1⟩ :=
    static_mark_spec _ _ _ h1
  obtain ⟨n1, n2, n3, n4, n5, n6, n7, n8, hiff2⟩ := static_main_spec _ _ _ h2
  have hiff1b : ∀ u, alookup g1.delete_status u = some true ↔
      (∃ s, (s, u) ∈ g.equiv_pairs ∧ g.move u ≠ []) := by
    intro u
    rw [hiff1 u]
    constructor
    · intro hcase
      rcases hcase with hcase | hcase
      · exfalso
        have hc2 : alookup ([] : List (String × Bool)) u = some true := hcase
        simp [alookup] at hc2
      · exact hcase
    · intro hcase
      exact Or.inr hcase
  have hginto : ∀ u, alookup g'.delete_status u = some true ↔
      alookup g1.delete_status u = some true := by
    intro u
    rw [h3]
    exact hiff2 u
  exact ⟨fun u => (hginto u).trans (hiff1b u), g1, h1, fun u => hginto u⟩

/-- Witness: in the static run on genC, B is marked deleted and indeed
is an equivalence target with a neighbour. -/
theorem c3_static_witness :
    alookup outC_static.delete_status "B" = some true ↔
      (∃ s, (s, "B") ∈ genC.equiv_pairs ∧ genC.move "B" ≠ []) :=
  (c3_static_deletion_prepass genC outC_static rfl rfl).1 "B"

/-- C4: in an online run with the deletion flag on, a target ends marked
deleted exactly when some pair processed along the pass has it as its
own target, is not skipped, and yields at least one accepted neighbour
(YieldsDel threads the intermediate states, so each mark is made right
after its pair and is visible to all later pairs); and one step skips
exactly when the own target of the pair is already marked constructed, the
skip changing nothing but the vivified construct map. -/
theorem c4_online_skip_and_delete (g g' : Gen)
    (hdel : g.is_delete_equiv_tgt = true)
    (hrun : online_subs_construct g = some g') :
    (∀ u, alookup g'.delete_status u = some true ↔
      YieldsDel (renew_subs g) (renew_subs g).equiv_pairs u) ∧
    (∀ (gg : Gen) (s t : String), gg.is_delete_equiv_tgt = true →
      ((dget gg.construct_status t).1 = true →
        online_step gg s t =
          some { gg with construct_status := (dget gg.construct_status t).2 }) ∧
      ((dget gg.construct_status t).1 = false →
        online_step gg s t =
          (subs_from_an_equiv
            { gg with construct_status := (dget gg.construct_status t).2 } s t).bind
            (fun p => some (online_after p.2 t p.1)))) := by
  constructor
  · obtain ⟨g1, hloop, heq⟩ := online_elim g g' hrun
    have hdel2 : (renew_subs g).is_delete_equiv_tgt = true := hdel
    have key := online_loop_delete_iff (renew_subs g).equiv_pairs
      (renew_subs g) g1 hdel2 hloop
    intro u
    have hgoal : alookup g'.delete_status u = some true ↔
        alookup g1.delete_status u = some true := by
      rw [heq]
    rw [hgoal, key u]
    constructor
    · intro hcase
      rcases hcase with hcase | hcase
      · exfalso
        have hc2 : alookup ([] : List (String × Bool)) u = some true := hcase
        simp [alookup] at hc2
      · exact hcase
    · intro hcase
      exact Or.inr hcase
  · intro gg s t hd
    exact online_step_char gg s t hd

/-- Witness: in the online run on genC, B is marked deleted and the pass
indeed yields its deletion. -/
theorem c4_online_witness :
    alookup outC_online.delete_status "B" = some true ↔
      YieldsDel (renew_subs genC) (renew_subs genC).equiv_pairs "B" :=
  (c4_online_skip_and_delete genC outC_online rfl rfl).1 "B"

/-- C5: after a static or online pass, the preserved unfolded target
identifiers together with the unfolded deleted targets exactly cover the
unfolded target class index, and the two sets are disjoint. -/
theorem c5_preserved_deleted_partition (g g' : Gen) (res : List String) (g2 : Gen)
    (hrun : static_subs_construct g = some g' ∨ online_subs_construct g = some g')
    (hq : preserved_tgt_iris g' = (res, g2)) :
    (∀ x, (x ∈ res ∨ ∃ k, alookup g'.delete_status k = some true ∧ x = unfold_iri k) ↔
      x ∈ g'.tgtClassIndex.map unfold_iri) ∧
    (∀ x, x ∈ res →
      ¬ ∃ k, alookup g'.delete_status k = some true ∧ x = unfold_iri k) := by
  have hwithin : ∀ k, alookup g'.delete_status k = some true → k ∈ g'.tgtClassIndex := by
    rcases hrun with hrun | hrun
    · obtain ⟨g1, gm, h1, h2, h3⟩ := static_elim g g' hrun
      obtain ⟨n1, n2, n3, n4, n5, n6, n7, n8, hiff2⟩ := static_main_spec _ _ _ h2
      intro k hk
      have hk0 : alookup gm.delete_status k = some true := by
        rw [h3] at hk
        exact hk
      have hk1 : alookup g1.delete_status k = some true := (hiff2 k).mp hk0
      have hidx : g'.tgtClassIndex = g1.tgtClassIndex := by
        rw [h3]
        exact n5
      rw [hidx]
      by_cases hd : (renew_subs g).is_delete_equiv_tgt = true
      · rw [if_pos hd] at h1
        obtain ⟨m1, m2, m3, m4, m5, m6, m7, m8, m9, m10, m11, hmem, hiff1⟩ :=
          static_mark_spec _ _ _ h1
        rcases (hiff1 k).mp hk1 with hcase | hcase
        · exfalso
          have hc2 : alookup ([] : List (String × Bool)) k = some true := hcase
          simp [alookup] at hc2
        · obtain ⟨s, hs1, _⟩ := hcase
          rw [m5]
          exact hmem s k hs1
      · rw [if_neg hd] at h1
        exfalso
        have hg1 : renew_subs g = g1 := Option.some.inj h1
        rw [← hg1] at hk1
        have hc2 : alookup ([] : List (String × Bool)) k = some true := hk1
        simp [alookup] at hc2
    · obtain ⟨g1, hloop, heq⟩ := online_elim g g' hrun
      obtain ⟨i1, i2⟩ := online_loop_elim _ _ _ hloop
      intro k hk
      have hk1 : alookup g1.delete_status k = some true := by
        rw [heq] at hk
        exact hk
      rcases i2 k hk1 with hcase | hcase
      · exfalso
        have hc2 : alookup ([] : List (String × Bool)) k = some true := hcase
        simp [alookup] at hc2
      · have hidx : g'.tgtClassIndex = (renew_subs g).tgtClassIndex := by
          rw [heq]
          exact i1
        rw [hidx]
        exact hcase
  obtain ⟨e1, _, _, _, _⟩ := preserved_loop_spec g'.tgtClassIndex g'.delete_status []
  have hres : res = (g'.tgtClassIndex.filter
      (fun k => !((alookup g'.delete_status k).getD false))).map unfold_iri := by
    have hq1 : (preserved_loop g'.delete_status [] g'.tgtClassIndex).1 = res :=
      congrArg Prod.fst hq
    rw [← hq1, e1]
    simp
  have hmemres : ∀ x, x ∈ res ↔ ∃ k, k ∈ g'.tgtClassIndex ∧
      (alookup g'.delete_status k).getD false = false ∧ x = unfold_iri k := by
    intro x
    rw [hres]
    constructor
    · intro hx
      obtain ⟨k, hk, hxe⟩ := List.mem_map.mp hx
      obtain ⟨hk1, hk2⟩ := List.mem_filter.mp hk
      refine ⟨k, hk1, ?_, hxe.symm⟩
      cases hvv : (alookup g'.delete_status k).getD false with
      | false => rfl
      | true =>
        rw [hvv] at hk2
        exact Bool.noConfusion hk2
    · intro hx
      obtain ⟨k, hk1, hk2, hxe⟩ := hx
      subst hxe
      apply List.mem_map_of_mem
      apply List.mem_filter.mpr
      refine ⟨hk1, ?_⟩
      rw [hk2]
      rfl
  constructor
  · intro x
    constructor
    · intro hx
      rcases hx with hx | hx
      · obtain ⟨k, hk1, _, hxe⟩ := (hmemres x).mp hx
        rw [hxe]
        exact List.mem_map_of_mem _ hk1
      · obtain ⟨k, hk1, hxe⟩ := hx
        rw [hxe]
        exact List.mem_map_of_mem _ (hwithin k hk1)
    · intro hx
      obtain ⟨k, hk1, hxe⟩ := List.mem_map.mp hx
      cases hvv : (alookup g'.delete_status k).getD false with
      | false =>
        left
        exact (hmemres x).mpr ⟨k, hk1, hvv, hxe.symm⟩
      | true =>
        right
        exact ⟨k, (getD_true_iff _ _).mp hvv, hxe.symm⟩
  · intro x hx hcon
    obtain ⟨k1, hk1, hv1, hxe1⟩ := (hmemres x).mp hx
    obtain ⟨k2, hv2, hxe2⟩ := hcon
    have hkeq : k1 = k2 := unfold_iri_inj _ _ (hxe1.symm.trans hxe2)
    rw [← hkeq] at hv2
    have hv3 : (alookup g'.delete_status k1).getD false = true :=
      (getD_true_iff _ _).mpr hv2
    rw [hv1] at hv3
    exact Bool.noConfusion hv3

/-- Witness: the partition property evaluated at the unfolded identifier
of the deleted target B after the static run on genC. -/
theorem c5_partition_witness :
    ((unfold_iri "B" ∈ prC.1 ∨
      ∃ k, alookup outC_static.delete_status k = some true ∧
        unfold_iri "B" = unfold_iri k) ↔
      unfold_iri "B" ∈ outC_static.tgtClassIndex.map unfold_iri) :=
  (c5_preserved_deleted_partition genC outC_static prC.1 prC.2
    (Or.inl rfl) rfl).1 (unfold_iri "B")

/-- C9: the preserved-targets query mutates the deletion map through its
defaulting reads: every pre-existing binding survives unchanged, every
index key absent before is inserted with value false, nothing else is
inserted, and the set of true entries is unchanged. -/
theorem c9_preserved_query_mutation (g : Gen) (res : List String) (g2 : Gen)
    (hq : preserved_tgt_iris g = (res, g2)) :
    (∀ k v, alookup g.delete_status k = some v → alookup g2.delete_status k = some v) ∧
    (∀ k, k ∈ g.tgtClassIndex → alookup g.delete_status k = none →
      alookup g2.delete_status k = some false) ∧
    (∀ k, alookup g.delete_status k = none → ¬ k ∈ g.tgtClassIndex →
      alookup g2.delete_status k = none) ∧
    (∀ k, alookup g2.delete_status k = some true ↔
      alookup g.delete_status k = some true) := by
  obtain ⟨_, e2, e3, e4, e5⟩ := preserved_loop_spec g.tgtClassIndex g.delete_status []
  have hq2 : (preserved_tgt_iris g).2 = g2 := congrArg Prod.snd hq
  have hg2 : g2.delete_status =
      (preserved_loop g.delete_status [] g.tgtClassIndex).2 := by
    rw [← hq2]
    rfl
  refine ⟨?_, ?_, ?_, ?_⟩
  · intro k v h
    rw [hg2]
    exact e2 k v h
  · intro k hk h
    rw [hg2]
    exact e3 k hk h
  · intro k h hk
    rw [hg2]
    exact e4 k h hk
  · intro k
    rw [hg2]
    exact e5 k

/-- Witness: on genE (B already marked deleted, index B and C) the query
inserts C with false and leaves the flag of B unchanged. -/
theorem c9_mutation_witness :
    alookup prE.2.delete_status "C" = some false ∧
      (alookup prE.2.delete_status "B" = some true ↔
        alookup genE.delete_status "B" = some true) :=
  ⟨(c9_preserved_query_mutation genE prE.1 prE.2 rfl).2.1 "C" (by decide) (by decide),
   (c9_preserved_query_mutation genE prE.1 prE.2 rfl).2.2.2 "B"⟩

end SubsMaps
